import Mathlib

/-!
Verification of `digit_adaptor.hh` (namespace `jz`): a container-like view of
the radix digits of a fixed-width integer.

Shallow embedding conventions:
* The backing element type `T` is a `w`-bit integer (`w` = bit width of `T`).
  A signed `T` holds values in `[-2^(w-1), 2^(w-1))`, an unsigned `T` holds
  values in `[0, 2^w)`; the predicate `inRange w signed v` captures this.
* `NCU = std::make_unsigned_t<T>` values are naturals `< 2^w`; its wrapping
  arithmetic is `wadd`/`wsub`/`wmul` (reduction modulo `2^w`).
* `static_cast<NCU>` of a `T` value is `intToNCU`; `static_cast<NCT>` of an
  `NCU` value is `toNCT` (two's-complement reinterpretation).
* The C++ `%` on possibly-negative integers truncates toward zero, which is
  `Int.tmod`; on naturals it is `Nat.mod`.
* The definitions built on `make_positive` are faithful for unsigned backing
  types of every width and for signed backing types whose unsigned
  counterpart is at least as wide as `int`, where compound assignments on
  `NCU` genuinely wrap at `2^w`.  For signed types strictly narrower than
  `int`, integral promotion makes the source's `-u` negate in `int` instead
  of wrapping; that behaviour is modelled separately by `make_positive_prom`,
  `digit_get_prom` and `total_digits_prom` below, and theorems about signed
  behaviour carry a `32 ≤ w` hypothesis where the two regimes differ.
* `std::size_t` is 64 bits: `int -> std::size_t` conversions reduce mod `2^64`.
-/

namespace DigitAdaptorModel

/-- Wrapping addition in the `w`-bit unsigned counterpart `NCU`. -/
def wadd (w a b : ℕ) : ℕ := (a + b) % 2 ^ w

/-- Wrapping multiplication in the `w`-bit unsigned counterpart `NCU`. -/
def wmul (w a b : ℕ) : ℕ := (a * b) % 2 ^ w

/-- Wrapping subtraction `a - b` in the `w`-bit unsigned counterpart `NCU`. -/
def wsub (w a b : ℕ) : ℕ := (((a : ℤ) - (b : ℤ)) % ((2 : ℤ) ^ w)).toNat

/-- `static_cast<NCU>(x)` for an integer value `x`: reduction modulo `2^w`. -/
def intToNCU (w : ℕ) (x : ℤ) : ℕ := (x % ((2 : ℤ) ^ w)).toNat

/-- `static_cast<NCT>(x)` for an `NCU` value `x < 2^w`: two's-complement
reinterpretation in the (possibly signed) element type `NCT`. -/
def toNCT (w : ℕ) (signed : Bool) (x : ℕ) : ℤ :=
  if signed then (if x < 2 ^ (w - 1) then (x : ℤ) else (x : ℤ) - (2 : ℤ) ^ w)
  else (x : ℤ)

/-- The `w`-bit range of the element type `T`. -/
abbrev inRange (w : ℕ) (signed : Bool) (v : ℤ) : Prop :=
  (signed = true → -((2 : ℤ) ^ (w - 1)) ≤ v ∧ v < (2 : ℤ) ^ (w - 1)) ∧
  (signed = false → 0 ≤ v ∧ v < (2 : ℤ) ^ w)

/-- `digit_adaptor::make_positive` (digit_adaptor.hh:88-91):
`u = static_cast<NCU>(value); return value < 0 ? -u : u;` where the negation
is the wrapping `NCU` negation.  Faithful for unsigned types and for signed
types of rank at least `int`; for narrower signed types `-u` integral-promotes
to `int` instead (see `make_positive_prom`). -/
def make_positive (w : ℕ) (v : ℤ) : ℕ :=
  if v < 0 then wsub w 0 (intToNCU w v) else intToNCU w v

/-- The do-while loop of `digit_adaptor::total_digits` (digit_adaptor.hh:95-105)
on the magnitude `u`: `do { d++; u /= RADIX; } while (u > 0);`.
The `radix ≤ 1` guard mirrors the `static_assert(RADIX > 1)` precondition and
only serves termination; all theorems assume `2 ≤ radix`. -/
def digit_count_loop (radix u : ℕ) : ℕ :=
  if h : u < radix ∨ radix ≤ 1 then 1
  else 1 + digit_count_loop radix (u / radix)
termination_by u
decreasing_by
  push_neg at h
  exact Nat.div_lt_self (by omega) (by omega)

/-- `digit_adaptor::total_digits` applied to the backing value.  Faithful on
`make_positive`'s domain (unsigned types, and signed types of rank at least
`int`); see `total_digits_prom` for narrower signed types. -/
def total_digits (w radix : ℕ) (v : ℤ) : ℕ :=
  digit_count_loop radix (make_positive w v)

/-- Iterator direction (digit_adaptor.hh:107). -/
inductive iter_dir where
  | Forward
  | Reverse

/-- The multiplication loop of `compute_divisor`: `k` iterations of
`divisor *= RADIX` in `NCU`, starting from accumulator `acc`. -/
def divisor_loop (w radix : ℕ) : ℕ → ℕ → ℕ
  | 0, acc => acc
  | k + 1, acc => divisor_loop w radix k (wmul w acc radix)

/-- `digit_adaptor::compute_divisor` (digit_adaptor.hh:111-130).
The index is first clamped: `index = std::max(std::min(digits, index), 0)`
(the `max` with `0` is the identity on an unsigned index).  Forward runs the
loop for `i` in `[index+1, digits)`, reverse for `i` in `[0, index)`. -/
def compute_divisor (w radix : ℕ) (dir : iter_dir) (index digits : ℕ) : ℕ :=
  match dir with
  | .Forward => divisor_loop w radix (digits - (min digits index + 1)) 1
  | .Reverse => divisor_loop w radix (min digits index) 1

/-- `mutable_reference_::operator T` / `const_reference_::operator T`
(digit_adaptor.hh:152-154): `(make_positive(*number_) / divisor_) % RADIX`,
as a natural number (the decoded digit before the final cast to `T`).
Faithful on `make_positive`'s domain; see `digit_get_prom` for signed types
narrower than `int`. -/
def digit_get (w radix : ℕ) (n : ℤ) (div : ℕ) : ℕ :=
  (make_positive w n / div) % radix

/-- The decoded digit as a `T` value: the final `T(...)` cast of
`operator T` (digit_adaptor.hh:152-154). -/
def digit_get_T (w radix : ℕ) (signed : Bool) (n : ℤ) (div : ℕ) : ℤ :=
  toNCT w signed (digit_get w radix n div)

/-- The magnitude computed by `mutable_reference_::operator=`
(digit_adaptor.hh:156-163) just before the sign is reapplied:
`temp = make_positive(*number_); temp -= ((temp / divisor_) % RADIX) * divisor_;
temp += (digit % RADIX) * divisor_;` in wrapping `NCU` arithmetic, with the
C++ truncated remainder on the caller-supplied digit `d : T`.  Faithful on
`make_positive`'s domain: for a signed type narrower than `int`, `temp` is
instead the promoted (possibly negative) `int` returned by the source's
`make_positive`. -/
def new_mag (w radix : ℕ) (n : ℤ) (div : ℕ) (d : ℤ) : ℕ :=
  wadd w
    (wsub w (make_positive w n)
      (wmul w ((make_positive w n / div) % radix) div))
    (wmul w (intToNCU w (Int.tmod d radix)) div)

/-- `mutable_reference_::operator=` (digit_adaptor.hh:156-163): the new value
stored into `*number_`:
`*number_ = static_cast<NCT>(is_negative ? -temp : temp);`.
Faithful on `make_positive`'s domain (see `new_mag`). -/
def digit_set (w radix : ℕ) (signed : Bool) (n : ℤ) (div : ℕ) (d : ℤ) : ℤ :=
  toNCT w signed
    (if n < 0 then wsub w 0 (new_mag w radix n div d) else new_mag w radix n div d)

/-- `iterator_::operator+(int rhs)` (digit_adaptor.hh:372-377):
`std::min(digits_, std::max(std::size_t{0}, index_ + rhs))`, where
`index_ + rhs` converts `rhs` to `std::size_t` and wraps modulo `2^64`
(the `max` with `0` is the identity on an unsigned value).
`operator+=` (digit_adaptor.hh:390-394) computes the same index. -/
def iter_plus (digits idx : ℕ) (k : ℤ) : ℕ :=
  min digits ((((idx : ℤ) + k) % ((2 : ℤ) ^ 64)).toNat)

/-- `iterator_::operator-(int rhs)` (digit_adaptor.hh:379-384), and the
identical index expression of `operator-=` (digit_adaptor.hh:396-400). -/
def iter_minus (digits idx : ℕ) (k : ℤ) : ℕ :=
  min digits ((((idx : ℤ) - k) % ((2 : ℤ) ^ 64)).toNat)

/-- `digit_adaptor::operator[](int index)` (digit_adaptor.hh:68-70): the
divisor of the returned reference.  The `int` index converts to `std::size_t`
(mod `2^64`) before `compute_divisor` clamps it to `digits`. -/
def index_divisor (w radix digits : ℕ) (index : ℤ) : ℕ :=
  compute_divisor w radix .Forward ((index % ((2 : ℤ) ^ 64)).toNat) digits

/-- The view: a borrowed backing value plus the immutable digit count
(digit_adaptor.hh:81-82). -/
structure digit_adaptor where
  number : ℤ
  digits : ℕ

/-- Auto-deriving constructor (digit_adaptor.hh:24-25). -/
def digit_adaptor.ofNumber (w radix : ℕ) (v : ℤ) : digit_adaptor :=
  ⟨v, total_digits w radix v⟩

/-- Explicit-count constructor (digit_adaptor.hh:30-31). -/
def digit_adaptor.ofNumberCount (v : ℤ) (c : ℕ) : digit_adaptor :=
  ⟨v, c⟩

/-- `digit_adaptor::size` (digit_adaptor.hh:73-75). -/
def digit_adaptor.size (da : digit_adaptor) : ℕ := da.digits

/-- A digit write through `view[i]`: the accessor produced by `operator[]`
mutates the backing number via `operator=`; the view's `digits_` member is
`const` and is carried over unchanged. -/
def digit_adaptor.writeDigit (w radix : ℕ) (signed : Bool) (da : digit_adaptor)
    (i : ℤ) (d : ℤ) : digit_adaptor :=
  ⟨digit_set w radix signed da.number (index_divisor w radix da.digits i) d,
   da.digits⟩

/-- Modelled from the source for a signed backing type strictly narrower than
`int` (e.g. `int8_t`): in `make_positive`, `u` has a type of rank below `int`,
so the expression `-u` integral-promotes `u` to `int` and negates exactly
(no wrapping at `2^w`); the function returns that `int` value. -/
def make_positive_prom (w : ℕ) (v : ℤ) : ℤ :=
  if v < 0 then -((intToNCU w v : ℕ) : ℤ) else ((intToNCU w v : ℕ) : ℤ)

/-- `operator T` for a signed backing type narrower than `int`: the division
and remainder happen in `int` (truncated, `Int.tdiv`/`Int.tmod`), and the
final `T(...)` cast wraps the result into the `w`-bit signed range. -/
def digit_get_prom (w radix : ℕ) (v : ℤ) (div : ℕ) : ℤ :=
  toNCT w true (intToNCU w (Int.tmod (Int.tdiv (make_positive_prom w v) (div : ℤ)) (radix : ℤ)))

/-- The `total_digits` do-while loop for a signed backing type strictly
narrower than `int`: the loop variable `u` has the promoted `int` type
returned by the source's `make_positive`, so `u /= RADIX` is truncated `int`
division and the `u > 0` test fails right after the first iteration whenever
`u` starts out nonpositive.  `do { d++; u /= RADIX; } while (u > 0);`
becomes: one iteration, plus the rest while the quotient stays positive
(the `2 ≤ radix` conjunct mirrors the `static_assert(RADIX > 1)` and only
serves termination). -/
def digit_count_loop_prom (radix u : ℤ) : ℕ :=
  if h : 0 < Int.tdiv u radix ∧ 2 ≤ radix then
    1 + digit_count_loop_prom radix (Int.tdiv u radix)
  else 1
termination_by u.toNat
decreasing_by
  obtain ⟨h1, h2⟩ := h
  have hu : 0 < u := by
    by_contra hle
    push_neg at hle
    have hneg : (0 : ℤ) ≤ -u := by omega
    have h3 := Int.tdiv_nonneg hneg (by omega : (0 : ℤ) ≤ radix)
    rw [Int.neg_tdiv] at h3
    omega
  have heq : Int.tdiv u radix = u / radix := Int.tdiv_eq_ediv (by omega) (by omega)
  have h4 : u * 2 ≤ u * radix := mul_le_mul_of_nonneg_left (by omega) (by omega)
  have h5 : u / radix < u := Int.ediv_lt_of_lt_mul (by omega) (by omega)
  omega

/-- `digit_adaptor::total_digits` for a signed backing type strictly narrower
than `int` (see `make_positive_prom`). -/
def total_digits_prom (w radix : ℕ) (v : ℤ) : ℕ :=
  digit_count_loop_prom radix (make_positive_prom w v)

/-! ### Basic arithmetic lemmas -/

lemma int_pow_cast (w : ℕ) : ((2 : ℤ) ^ w) = ((2 ^ w : ℕ) : ℤ) := by push_cast; ring
lemma wsub_zero_pos (w b : ℕ) (hb0 : 0 < b) (hb : b ≤ 2 ^ w) : wsub w 0 b = 2 ^ w - b := by
  unfold wsub
  rw [int_pow_cast w]
  rw [show ((0:ℕ):ℤ) - (b:ℤ) = (((2^w : ℕ) : ℤ) - b) + ((2^w : ℕ) : ℤ) * (-1) by ring]
  rw [Int.add_mul_emod_self_left, Int.emod_eq_of_lt (by omega) (by omega)]
  omega
lemma intToNCU_neg_ofNat (w b : ℕ) (hb0 : 0 < b) (hb : b ≤ 2 ^ w) :
    intToNCU w (-(b : ℤ)) = 2 ^ w - b := by
  unfold intToNCU
  rw [int_pow_cast w]
  rw [show -(b:ℤ) = (((2^w : ℕ) : ℤ) - b) + ((2^w : ℕ) : ℤ) * (-1) by ring]
  rw [Int.add_mul_emod_self_left, Int.emod_eq_of_lt (by omega) (by omega)]
  omega
lemma intToNCU_ofNat (w x : ℕ) (h : x < 2 ^ w) : intToNCU w (x : ℤ) = x := by
  unfold intToNCU
  rw [int_pow_cast w, Int.emod_eq_of_lt (by omega) (by omega)]
  omega

lemma wsub_exact (w a b : ℕ) (hb : b ≤ a) (ha : a < 2 ^ w) : wsub w a b = a - b := by
  unfold wsub
  rw [int_pow_cast w, Int.emod_eq_of_lt (by omega) (by omega)]
  omega

lemma wsub_zero_zero (w : ℕ) : wsub w 0 0 = 0 := by
  unfold wsub
  norm_num

lemma wsub_lt (w a b : ℕ) : wsub w a b < 2 ^ w := by
  unfold wsub
  have hpos : (0:ℤ) < (2:ℤ)^w := by positivity
  have h1 := Int.emod_nonneg ((a:ℤ) - b) (ne_of_gt hpos)
  have h2 := Int.emod_lt_of_pos ((a:ℤ) - b) hpos
  have h3 := int_pow_cast w
  omega

lemma intToNCU_lt (w : ℕ) (x : ℤ) : intToNCU w x < 2 ^ w := by
  unfold intToNCU
  have hpos : (0:ℤ) < (2:ℤ)^w := by positivity
  have h1 := Int.emod_nonneg x (ne_of_gt hpos)
  have h2 := Int.emod_lt_of_pos x hpos
  have h3 := int_pow_cast w
  omega

lemma wadd_lt (w a b : ℕ) : wadd w a b < 2 ^ w := Nat.mod_lt _ (by positivity)

lemma wmul_exact (w a b : ℕ) (h : a * b < 2 ^ w) : wmul w a b = a * b := Nat.mod_eq_of_lt h

lemma wadd_exact (w a b : ℕ) (h : a + b < 2 ^ w) : wadd w a b = a + b := Nat.mod_eq_of_lt h

lemma pow_pred_lt (w : ℕ) (hw : 1 ≤ w) : 2 ^ (w - 1) < 2 ^ w :=
  Nat.pow_lt_pow_right (by omega) (by omega)

/-- For an in-range value, `make_positive` is exactly the magnitude. -/
lemma make_positive_natAbs (w : ℕ) (signed : Bool) (v : ℤ) (hw : 1 ≤ w)
    (hv : inRange w signed v) : make_positive w v = v.natAbs := by
  have hplt := pow_pred_lt w hw
  have hcast := int_pow_cast w
  have hcast2 : ((2 : ℤ) ^ (w - 1)) = ((2 ^ (w - 1) : ℕ) : ℤ) := by push_cast; ring
  unfold make_positive
  by_cases hv0 : v < 0
  · rw [if_pos hv0]
    cases signed with
    | false =>
      exact absurd (hv.2 rfl).1 (by omega)
    | true =>
      obtain ⟨h1, h2⟩ := hv.1 rfl
      have habs : v = -((v.natAbs : ℕ) : ℤ) := by omega
      have habs1 : 0 < v.natAbs := by omega
      have habs2 : v.natAbs ≤ 2 ^ (w - 1) := by omega
      rw [habs, intToNCU_neg_ofNat w v.natAbs habs1 (by omega)]
      rw [wsub_zero_pos w _ (by omega) (by omega)]
      omega
  · rw [if_neg hv0]
    have hlt : v.natAbs < 2 ^ w := by
      cases signed with
      | false => have := (hv.2 rfl).2; omega
      | true => have := (hv.1 rfl).2; omega
    have habs : v = ((v.natAbs : ℕ) : ℤ) := by omega
    rw [habs, intToNCU_ofNat w _ hlt]
    omega

lemma make_positive_lt (w : ℕ) (v : ℤ) : make_positive w v < 2 ^ w := by
  unfold make_positive wsub intToNCU
  have hpos : (0:ℤ) < (2:ℤ)^w := by positivity
  have hcast := int_pow_cast w
  by_cases hv0 : v < 0
  · rw [if_pos hv0]
    have h1 := Int.emod_nonneg (((0:ℕ):ℤ) - ((v % ((2:ℤ)^w)).toNat : ℤ)) (ne_of_gt hpos)
    have h2 := Int.emod_lt_of_pos (((0:ℕ):ℤ) - ((v % ((2:ℤ)^w)).toNat : ℤ)) hpos
    omega
  · rw [if_neg hv0]
    have h1 := Int.emod_nonneg v (ne_of_gt hpos)
    have h2 := Int.emod_lt_of_pos v hpos
    omega

/-- The do-while loop returns, for magnitude `u`, a count `d` with
`u < radix^d`, minimal among such counts when `u ≠ 0`. -/
lemma digit_count_loop_spec (radix : ℕ) (hr : 2 ≤ radix) :
    ∀ u, u < radix ^ digit_count_loop radix u ∧
      (u ≠ 0 → ∀ k, k < digit_count_loop radix u → radix ^ k ≤ u) := by
  intro u
  induction u using Nat.strong_induction_on with
  | _ u ih =>
    by_cases h : u < radix
    · rw [digit_count_loop, dif_pos (Or.inl h)]
      refine ⟨by simpa using h, ?_⟩
      intro hu k hk
      have : k = 0 := by omega
      subst this
      simpa using Nat.one_le_iff_ne_zero.mpr hu
    · have hcond : ¬(u < radix ∨ radix ≤ 1) := by omega
      rw [digit_count_loop, dif_neg hcond]
      have hlt : u / radix < u := Nat.div_lt_self (by omega) (by omega)
      obtain ⟨ih1, ih2⟩ := ih (u / radix) hlt
      constructor
      · have hstep : u < (u / radix + 1) * radix := by
          have hq := Nat.div_add_mod u radix
          rw [Nat.mul_comm] at hq
          have hm : u % radix < radix := Nat.mod_lt _ (by omega)
          rw [Nat.add_mul, one_mul]
          omega
        calc u < (u / radix + 1) * radix := hstep
          _ ≤ radix ^ digit_count_loop radix (u / radix) * radix :=
            Nat.mul_le_mul_right _ ih1
          _ = radix ^ (1 + digit_count_loop radix (u / radix)) := by
            rw [add_comm, pow_succ]
      · intro hu k hk
        match k with
        | 0 => simpa using Nat.one_le_iff_ne_zero.mpr hu
        | k + 1 =>
          have hk2 : k < digit_count_loop radix (u / radix) := by omega
          have hq0 : u / radix ≠ 0 := by
            have h1 : 1 ≤ u / radix := (Nat.one_le_div_iff (by omega)).mpr (by omega)
            omega
          have h3 := ih2 hq0 k hk2
          calc radix ^ (k + 1) = radix ^ k * radix := pow_succ radix k
            _ ≤ u / radix * radix := Nat.mul_le_mul_right _ h3
            _ ≤ u := Nat.div_mul_le_self u radix

lemma wmul_lt (w a b : ℕ) : wmul w a b < 2 ^ w := Nat.mod_lt _ (by positivity)

lemma divisor_loop_eq (w radix : ℕ) :
    ∀ k acc, acc < 2 ^ w → divisor_loop w radix k acc = acc * radix ^ k % 2 ^ w := by
  intro k
  induction k with
  | zero => intro acc h; simp [divisor_loop, Nat.mod_eq_of_lt h]
  | succ k ih =>
    intro acc h
    rw [divisor_loop, ih _ (wmul_lt w acc radix)]
    unfold wmul
    rw [Nat.mod_mul_mod]
    congr 1
    ring

lemma compute_divisor_forward (w radix i c : ℕ) (hw : 1 ≤ w) (hi : i < c) :
    compute_divisor w radix .Forward i c = radix ^ (c - 1 - i) % 2 ^ w := by
  simp only [compute_divisor]
  rw [divisor_loop_eq w radix _ 1 (Nat.one_lt_two_pow_iff.mpr (by omega)), one_mul]
  congr 2
  omega

lemma compute_divisor_reverse (w radix i c : ℕ) (hw : 1 ≤ w) (hi : i ≤ c) :
    compute_divisor w radix .Reverse i c = radix ^ i % 2 ^ w := by
  simp only [compute_divisor]
  rw [divisor_loop_eq w radix _ 1 (Nat.one_lt_two_pow_iff.mpr (by omega)), one_mul]
  congr 2
  omega

lemma direction_symmetry (w radix c i : ℕ) :
    compute_divisor w radix .Forward i c = compute_divisor w radix .Reverse (c - 1 - i) c := by
  simp only [compute_divisor]
  congr 1
  omega

/-! ### Reading back a stored magnitude -/

lemma two_pow_split (w : ℕ) (hw : 1 ≤ w) : 2 ^ w = 2 ^ (w - 1) + 2 ^ (w - 1) := by
  conv_lhs => rw [show w = (w - 1) + 1 by omega]
  rw [pow_succ]
  ring

/-- Storing a nonnegative magnitude `t2` (the `is_negative = false` branch of
`operator=`) and decoding it again with `make_positive` recovers `t2`,
provided `t2` is representable. -/
lemma make_positive_store_nonneg (w : ℕ) (signed : Bool) (t2 : ℕ) (hw : 1 ≤ w)
    (ht : t2 < 2 ^ w) (hs : signed = true → t2 ≤ 2 ^ (w - 1)) :
    make_positive w (toNCT w signed t2) = t2 := by
  have hsplit := two_pow_split w hw
  cases signed with
  | false =>
    have h1 : toNCT w false t2 = (t2 : ℤ) := rfl
    rw [h1]
    unfold make_positive
    rw [if_neg (by omega), intToNCU_ofNat w t2 ht]
  | true =>
    have hs2 := hs rfl
    unfold toNCT
    rw [if_pos rfl]
    by_cases hlt : t2 < 2 ^ (w - 1)
    · rw [if_pos hlt]
      unfold make_positive
      rw [if_neg (by omega), intToNCU_ofNat w t2 ht]
    · rw [if_neg hlt]
      have ht2 : t2 = 2 ^ (w - 1) := by omega
      have hneg : (t2 : ℤ) - (2 : ℤ) ^ w = -(((2 ^ w - t2 : ℕ) : ℤ)) := by
        rw [int_pow_cast w]
        omega
      unfold make_positive
      rw [if_pos (by rw [hneg]; omega)]
      rw [hneg, intToNCU_neg_ofNat w _ (by omega) (by omega)]
      rw [wsub_zero_pos w _ (by omega) (by omega)]
      omega

/-- Storing magnitude `t2` through the `is_negative = true` branch of
`operator=` (signed type) and decoding it again recovers `t2`, provided
`t2 ≤ 2^(w-1)`. -/
lemma make_positive_store_neg (w : ℕ) (t2 : ℕ) (hw : 1 ≤ w)
    (ht : t2 ≤ 2 ^ (w - 1)) :
    make_positive w (toNCT w true (wsub w 0 t2)) = t2 := by
  have hsplit := two_pow_split w hw
  rcases Nat.eq_zero_or_pos t2 with h0 | h0
  · subst h0
    rw [wsub_zero_zero]
    unfold toNCT
    rw [if_pos rfl, if_pos (by positivity)]
    unfold make_positive
    rw [if_neg (by omega)]
    exact intToNCU_ofNat w 0 (by positivity)
  · rw [wsub_zero_pos w t2 h0 (by omega)]
    unfold toNCT
    rw [if_pos rfl, if_neg (by omega)]
    have hneg : ((2 ^ w - t2 : ℕ) : ℤ) - (2 : ℤ) ^ w = -((t2 : ℕ) : ℤ) := by
      rw [int_pow_cast w]
      omega
    unfold make_positive
    rw [if_pos (by rw [hneg]; omega)]
    rw [hneg, intToNCU_neg_ofNat w _ h0 (by omega)]
    rw [wsub_zero_pos w _ (by omega) (by omega)]
    omega

/-! ### The C++ truncated remainder on a decoded digit -/

lemma tmod_neg_small (a b : ℕ) (h : a < b) : Int.tmod (-(a : ℤ)) (b : ℤ) = -(a : ℤ) := by
  rw [Int.tmod_def, Int.neg_tdiv, Int.tdiv_eq_zero_of_lt (by omega) (by omega)]
  ring

lemma tmod_ofNat (a b : ℕ) : Int.tmod ((a : ℕ) : ℤ) ((b : ℕ) : ℤ) = ((a % b : ℕ) : ℤ) :=
  (Int.ofNat_tmod a b).symm

/-- Caster round trip for a decoded digit `x < radix`: casting it to `T`
(`toNCT`), taking the C++ `%` (`tmod`), and converting back to `NCU` yields
`x` again, even when `T` is signed and `x = 2^(w-1)` wraps to a negative
value in the cast. -/
lemma intToNCU_tmod_toNCT (w radix : ℕ) (signed : Bool) (x : ℕ) (hw : 1 ≤ w)
    (hxr : x < radix) (hxw : x < 2 ^ w) (hxs : signed = true → x ≤ 2 ^ (w - 1)) :
    intToNCU w (Int.tmod (toNCT w signed x) (radix : ℤ)) = x := by
  have hsplit := two_pow_split w hw
  have hnonneg_case : intToNCU w (Int.tmod ((x : ℕ) : ℤ) (radix : ℤ)) = x := by
    rw [tmod_ofNat, Nat.mod_eq_of_lt hxr, intToNCU_ofNat w x hxw]
  cases signed with
  | false => exact hnonneg_case
  | true =>
    unfold toNCT
    rw [if_pos rfl]
    by_cases hlt : x < 2 ^ (w - 1)
    · rw [if_pos hlt]
      exact hnonneg_case
    · rw [if_neg hlt]
      have hx2 : x = 2 ^ (w - 1) := by
        have := hxs rfl
        omega
      have hneg : (x : ℤ) - (2 : ℤ) ^ w = -(((2 ^ w - x : ℕ) : ℤ)) := by
        rw [int_pow_cast w]
        omega
      have hxw2 : 2 ^ w - x = x := by omega
      rw [hneg, hxw2, tmod_neg_small x radix hxr]
      rw [intToNCU_neg_ofNat w x (by omega) (by omega)]
      omega

/-! ### Round trip: writing back the digit just read -/

/-- Core `NCU` computation of the round trip: clearing a digit contribution
and adding the same contribution back restores the magnitude. -/
lemma new_mag_restore (w radix t0 div : ℕ) (ht0 : t0 < 2 ^ w) :
    wadd w (wsub w t0 (wmul w (t0 / div % radix) div)) (wmul w (t0 / div % radix) div) = t0 := by
  have hprod : t0 / div % radix * div ≤ t0 := by
    rcases Nat.eq_zero_or_pos div with h | h
    · subst h
      simp
    · calc t0 / div % radix * div ≤ t0 / div * div :=
          Nat.mul_le_mul_right _ (Nat.mod_le _ _)
        _ ≤ t0 := Nat.div_mul_le_self _ _
  rw [wmul_exact w _ div (by omega)]
  rw [wsub_exact w t0 _ hprod ht0]
  unfold wadd
  rw [Nat.sub_add_cancel hprod]
  exact Nat.mod_eq_of_lt ht0

/-- Round trip through any accessor: `set(get())` restores the backing value
exactly, including its sign. -/
lemma round_trip_div (w radix : ℕ) (signed : Bool) (v : ℤ) (div : ℕ)
    (hw : 1 ≤ w) (hr : 2 ≤ radix) (hv : inRange w signed v) :
    digit_set w radix signed v div (digit_get_T w radix signed v div) = v := by
  have hsplit := two_pow_split w hw
  have hcast2 : ((2 : ℤ) ^ (w - 1)) = ((2 ^ (w - 1) : ℕ) : ℤ) := by push_cast; ring
  have hmp := make_positive_natAbs w signed v hw hv
  have ht0w : make_positive w v < 2 ^ w := make_positive_lt w v
  have ht0s : signed = true → make_positive w v ≤ 2 ^ (w - 1) := by
    intro hs
    obtain ⟨h1, h2⟩ := hv.1 hs
    rw [hmp]
    omega
  have hdvr : make_positive w v / div % radix < radix := Nat.mod_lt _ (by omega)
  have hdvle : make_positive w v / div % radix ≤ make_positive w v := by
    rcases Nat.eq_zero_or_pos div with h | h
    · subst h
      simp
    · calc make_positive w v / div % radix ≤ make_positive w v / div := Nat.mod_le _ _
        _ ≤ make_positive w v := Nat.div_le_self _ _
  have hm : intToNCU w (Int.tmod (digit_get_T w radix signed v div) (radix : ℤ)) =
      make_positive w v / div % radix := by
    unfold digit_get_T digit_get
    exact intToNCU_tmod_toNCT w radix signed _ hw hdvr (by omega) (fun hs => by
      have := ht0s hs
      omega)
  have hnm : new_mag w radix v div (digit_get_T w radix signed v div) = make_positive w v := by
    unfold new_mag
    rw [hm]
    exact new_mag_restore w radix _ div ht0w
  unfold digit_set
  rw [hnm]
  by_cases hv0 : v < 0
  · rw [if_pos hv0]
    have hsigned : signed = true := by
      cases signed with
      | false =>
        have := (hv.2 rfl).1
        omega
      | true => rfl
    subst hsigned
    obtain ⟨h1, h2⟩ := hv.1 rfl
    have ht0pos : 0 < make_positive w v := by
      rw [hmp]
      omega
    rw [wsub_zero_pos w _ ht0pos (by omega)]
    unfold toNCT
    rw [if_pos rfl, if_neg (by have := ht0s rfl; omega)]
    rw [int_pow_cast w]
    omega
  · rw [if_neg hv0]
    cases signed with
    | false =>
      have h1 : toNCT w false (make_positive w v) = ((make_positive w v : ℕ) : ℤ) := rfl
      rw [h1, hmp]
      omega
    | true =>
      obtain ⟨h1, h2⟩ := hv.1 rfl
      unfold toNCT
      rw [if_pos rfl, if_pos (by rw [hmp]; omega)]
      rw [hmp]
      omega

/-! ### Digit surgery: effect of a write on the base-radix digits -/

lemma digit_contrib_le (t0 div radix : ℕ) : t0 / div % radix * div ≤ t0 := by
  rcases Nat.eq_zero_or_pos div with h | h
  · subst h
    simp
  · calc t0 / div % radix * div ≤ t0 / div * div :=
        Nat.mul_le_mul_right _ (Nat.mod_le _ _)
      _ ≤ t0 := Nat.div_mul_le_self _ _

lemma new_mag_lt (w radix : ℕ) (n : ℤ) (div : ℕ) (d : ℤ) :
    new_mag w radix n div d < 2 ^ w := wadd_lt w _ _

/-- When nothing overflows, `new_mag` is the exact digit-replacement value. -/
lemma new_mag_exact (w radix : ℕ) (n : ℤ) (div : ℕ) (d : ℤ)
    (hd0 : 0 ≤ d) (hr : 2 ≤ radix) (hrw : radix ≤ 2 ^ w)
    (hsum : make_positive w n - make_positive w n / div % radix * div
        + (d % (radix : ℤ)).toNat * div < 2 ^ w) :
    new_mag w radix n div d =
      make_positive w n - make_positive w n / div % radix * div
        + (d % (radix : ℤ)).toNat * div := by
  have ht0 : make_positive w n < 2 ^ w := make_positive_lt w n
  have hprod := digit_contrib_le (make_positive w n) div radix
  have hradix_pos : (0 : ℤ) < (radix : ℤ) := by omega
  have hd2 : (d % (radix : ℤ)).toNat < radix := by
    have h1 := Int.emod_nonneg d (ne_of_gt hradix_pos)
    have h2 := Int.emod_lt_of_pos d hradix_pos
    omega
  have htm : Int.tmod d (radix : ℤ) = (((d % (radix : ℤ)).toNat : ℕ) : ℤ) := by
    rw [Int.tmod_eq_emod hd0 (by omega)]
    have h1 := Int.emod_nonneg d (ne_of_gt hradix_pos)
    omega
  unfold new_mag
  rw [htm, intToNCU_ofNat w _ (by omega)]
  rw [wmul_exact w _ div (by omega)]
  rw [wsub_exact w _ _ hprod ht0]
  rw [wmul_exact w _ div (by omega)]
  exact wadd_exact w _ _ hsum

lemma digit_decomp (radix e t0 : ℕ) :
    t0 = t0 / radix ^ (e + 1) * radix ^ (e + 1)
        + t0 / radix ^ e % radix * radix ^ e + t0 % radix ^ e := by
  have h3 : t0 / radix ^ e / radix = t0 / radix ^ (e + 1) := by
    rw [Nat.div_div_eq_div_mul, ← pow_succ]
  have h2 := Nat.div_add_mod (t0 / radix ^ e) radix
  rw [h3] at h2
  calc t0 = radix ^ e * (t0 / radix ^ e) + t0 % radix ^ e :=
        (Nat.div_add_mod t0 (radix ^ e)).symm
    _ = radix ^ e * (radix * (t0 / radix ^ (e + 1)) + t0 / radix ^ e % radix)
        + t0 % radix ^ e := by rw [h2]
    _ = t0 / radix ^ (e + 1) * radix ^ (e + 1)
        + t0 / radix ^ e % radix * radix ^ e + t0 % radix ^ e := by
        rw [pow_succ]
        ring

/-- The middle digit of the canonical sum `A*radix^(e+1) + d2*radix^e + B`. -/
lemma digit_extract_mid (radix e A d2 B : ℕ) (hr : 2 ≤ radix)
    (hd : d2 < radix) (hB : B < radix ^ e) :
    (A * radix ^ (e + 1) + d2 * radix ^ e + B) / radix ^ e % radix = d2 := by
  have hre : 0 < radix ^ e := by positivity
  have harr : A * radix ^ (e + 1) + d2 * radix ^ e + B
      = B + (radix * A + d2) * radix ^ e := by
    rw [pow_succ]
    ring
  rw [harr, Nat.add_mul_div_right _ _ hre, Nat.div_eq_of_lt hB, zero_add]
  rw [Nat.mul_add_mod]
  exact Nat.mod_eq_of_lt hd

/-- The part of the canonical sum below `radix^e`. -/
lemma digit_extract_low (radix e A d2 B : ℕ) (hB : B < radix ^ e) :
    (A * radix ^ (e + 1) + d2 * radix ^ e + B) % radix ^ e = B := by
  have harr : A * radix ^ (e + 1) + d2 * radix ^ e + B
      = B + (radix * A + d2) * radix ^ e := by
    rw [pow_succ]
    ring
  rw [harr, Nat.add_mul_mod_self_right]
  exact Nat.mod_eq_of_lt hB

/-- The part of the canonical sum above `radix^e`. -/
lemma digit_extract_high (radix e A d2 B : ℕ) (hr : 2 ≤ radix)
    (hd : d2 < radix) (hB : B < radix ^ e) :
    (A * radix ^ (e + 1) + d2 * radix ^ e + B) / radix ^ (e + 1) = A := by
  have hre1 : 0 < radix ^ (e + 1) := by positivity
  have hsmall : d2 * radix ^ e + B < radix ^ (e + 1) := by
    have h1 : d2 * radix ^ e + radix ^ e ≤ radix * radix ^ e := by
      calc d2 * radix ^ e + radix ^ e = (d2 + 1) * radix ^ e := by ring
        _ ≤ radix * radix ^ e := Nat.mul_le_mul_right _ (by omega)
    have h2 : radix * radix ^ e = radix ^ (e + 1) := by
      rw [pow_succ]
      ring
    omega
  have harr : A * radix ^ (e + 1) + d2 * radix ^ e + B
      = (d2 * radix ^ e + B) + A * radix ^ (e + 1) := by ring
  rw [harr, Nat.add_mul_div_right _ _ hre1, Nat.div_eq_of_lt hsmall, zero_add]

/-- The canonical sum stays below `radix^c` when its leading part does. -/
lemma digit_sum_lt (radix e c A d2 B : ℕ) (hr : 2 ≤ radix) (hec : e < c)
    (hA : A < radix ^ (c - e - 1)) (hd : d2 < radix) (hB : B < radix ^ e) :
    A * radix ^ (e + 1) + d2 * radix ^ e + B < radix ^ c := by
  have h1 : radix * A + d2 + 1 ≤ radix ^ (c - e - 1) * radix := by
    calc radix * A + d2 + 1 ≤ radix * A + radix := by omega
      _ = (A + 1) * radix := by ring
      _ ≤ radix ^ (c - e - 1) * radix := Nat.mul_le_mul_right _ (by omega)
  calc A * radix ^ (e + 1) + d2 * radix ^ e + B
      = (radix * A + d2) * radix ^ e + B := by
        rw [pow_succ]
        ring
    _ < (radix * A + d2) * radix ^ e + radix ^ e := by omega
    _ = (radix * A + d2 + 1) * radix ^ e := by ring
    _ ≤ radix ^ (c - e - 1) * radix * radix ^ e := Nat.mul_le_mul_right _ h1
    _ = radix ^ c := by
        rw [← pow_succ, ← pow_add]
        congr 1
        omega

/-- Two numbers agreeing below `radix^e` have the same digits below `e`. -/
lemma digit_low_eq (radix e f x y : ℕ) (hfe : f < e)
    (h : x % radix ^ e = y % radix ^ e) :
    x / radix ^ f % radix = y / radix ^ f % radix := by
  rw [← Nat.mod_mul_right_div_self x (radix ^ f) radix,
      ← Nat.mod_mul_right_div_self y (radix ^ f) radix]
  have hpow : radix ^ f * radix = radix ^ (f + 1) := (pow_succ _ _).symm
  have hdvd : radix ^ (f + 1) ∣ radix ^ e := pow_dvd_pow radix (by omega)
  rw [hpow, ← Nat.mod_mod_of_dvd x hdvd, h, Nat.mod_mod_of_dvd y hdvd]

/-- Two numbers with the same quotient by `radix^(e+1)` have the same digits
above `e`. -/
lemma digit_high_eq (radix e f x y : ℕ) (hfe : e + 1 ≤ f)
    (h : x / radix ^ (e + 1) = y / radix ^ (e + 1)) :
    x / radix ^ f % radix = y / radix ^ f % radix := by
  have hsplit : radix ^ f = radix ^ (e + 1) * radix ^ (f - e - 1) := by
    rw [← pow_add]
    congr 1
    omega
  rw [hsplit, ← Nat.div_div_eq_div_mul, ← Nat.div_div_eq_div_mul, h]

/-- Replacing the digit at exponent `e` of a magnitude `t0 < radix^c`:
the result stays below `radix^c`, decodes to the new digit at `e`, and
keeps every other digit. -/
lemma digit_surgery (radix e c t0 d2 : ℕ) (hr : 2 ≤ radix) (hec : e < c)
    (ht0 : t0 < radix ^ c) (hd : d2 < radix) :
    (t0 - t0 / radix ^ e % radix * radix ^ e + d2 * radix ^ e < radix ^ c) ∧
    ((t0 - t0 / radix ^ e % radix * radix ^ e + d2 * radix ^ e) / radix ^ e % radix = d2) ∧
    (∀ f, f ≠ e →
      (t0 - t0 / radix ^ e % radix * radix ^ e + d2 * radix ^ e) / radix ^ f % radix
        = t0 / radix ^ f % radix) := by
  have hdecomp := digit_decomp radix e t0
  have hre : 0 < radix ^ e := by positivity
  have hre1 : 0 < radix ^ (e + 1) := by positivity
  have hblt : t0 % radix ^ e < radix ^ e := Nat.mod_lt _ hre
  have ht2canon : t0 - t0 / radix ^ e % radix * radix ^ e + d2 * radix ^ e
      = t0 / radix ^ (e + 1) * radix ^ (e + 1) + d2 * radix ^ e + t0 % radix ^ e := by
    have key : ∀ X J B L t : ℕ, t = X + J + B → t - J + L = X + L + B := by
      intro X J B L t h
      omega
    exact key _ _ _ _ t0 hdecomp
  have ha_bound : t0 / radix ^ (e + 1) < radix ^ (c - e - 1) := by
    rw [Nat.div_lt_iff_lt_mul hre1]
    calc t0 < radix ^ c := ht0
      _ = radix ^ (c - e - 1) * radix ^ (e + 1) := by
          rw [← pow_add]
          congr 1
          omega
  refine ⟨?_, ?_, ?_⟩
  · rw [ht2canon]
    exact digit_sum_lt radix e c _ d2 _ hr hec ha_bound hd hblt
  · rw [ht2canon]
    exact digit_extract_mid radix e _ d2 _ hr hd hblt
  · intro f hf
    rcases Nat.lt_or_ge f e with hfe | hfe
    · refine digit_low_eq radix e f _ _ hfe ?_
      rw [ht2canon]
      exact digit_extract_low radix e _ d2 _ hblt
    · refine digit_high_eq radix e f _ _ (by omega) ?_
      rw [ht2canon]
      exact digit_extract_high radix e _ d2 _ hr hd hblt

/-! ### Iterator arithmetic: clamping behaviour of `operator+` / `operator-` -/

lemma emod_neg_add (s M : ℤ) (hM : 0 < M) (hlo : -M ≤ s) (hs : s < 0) :
    s % M = s + M := by
  have h1 : s % M = (s + M + M * (-1)) % M := by
    congr 1
    ring
  rw [h1, Int.add_mul_emod_self_left]
  exact Int.emod_eq_of_lt (by omega) (by omega)

/-- Behaviour of the clamped `std::size_t` index expression
`std::min(digits, index + rhs)` for a mathematical offset sum `s`. -/
lemma clamp_core (c : ℕ) (s : ℤ) (hc : c < 2 ^ 32)
    (hlo : -(2 ^ 33) ≤ s) (hhi : s < 2 ^ 33) :
    (min c ((s % ((2 : ℤ) ^ 64)).toNat) ≤ c) ∧
    (0 ≤ s → s ≤ (c : ℤ) → ((min c ((s % ((2 : ℤ) ^ 64)).toNat) : ℕ) : ℤ) = s) ∧
    ((c : ℤ) < s → min c ((s % ((2 : ℤ) ^ 64)).toNat) = c) ∧
    (s < 0 → min c ((s % ((2 : ℤ) ^ 64)).toNat) = c) := by
  have h64 : ((2 : ℤ) ^ 64) = 18446744073709551616 := by norm_num
  have h33 : ((2 : ℤ) ^ 33) = 8589934592 := by norm_num
  have h32 : (2 : ℕ) ^ 32 = 4294967296 := by norm_num
  by_cases hs : 0 ≤ s
  · have hmod : s % ((2 : ℤ) ^ 64) = s := Int.emod_eq_of_lt hs (by omega)
    rw [hmod]
    refine ⟨min_le_left _ _, ?_, ?_, ?_⟩ <;> intros <;> omega
  · push_neg at hs
    have hmod : s % ((2 : ℤ) ^ 64) = s + 2 ^ 64 :=
      emod_neg_add s _ (by omega) (by omega) hs
    rw [hmod]
    refine ⟨min_le_left _ _, ?_, ?_, ?_⟩ <;> intros <;> omega

lemma digit_count_loop_pos (radix u : ℕ) : 1 ≤ digit_count_loop radix u := by
  rw [digit_count_loop]
  split <;> omega

lemma ofNumber_size_pos (w radix : ℕ) (v : ℤ) :
    0 < (digit_adaptor.ofNumber w radix v).size :=
  digit_count_loop_pos radix _

/-! ### The claims -/

/-- The digit-count law on `make_positive`'s faithful domain (unsigned types,
and signed types of rank at least `int`): the auto-deriving constructor
produces `size() = 1` when `v = 0`, and otherwise the smallest `k` with
`radix^k > |v|`.  For signed types narrower than `int` the code violates the
law; see `spec_digit_count_promotion_bug`. -/
lemma total_digits_law_wide (w radix : ℕ) (signed : Bool) (v : ℤ)
    (hw : 1 ≤ w) (hr : 2 ≤ radix) (hv : inRange w signed v) :
    (v = 0 → total_digits w radix v = 1) ∧
    (v ≠ 0 → v.natAbs < radix ^ total_digits w radix v ∧
      ∀ k, v.natAbs < radix ^ k → total_digits w radix v ≤ k) := by
  have hmp := make_positive_natAbs w signed v hw hv
  unfold total_digits
  rw [hmp]
  constructor
  · intro h0
    subst h0
    simp only [Int.natAbs_zero]
    rw [digit_count_loop, dif_pos (Or.inl (by omega))]
  · intro hne
    obtain ⟨h1, h2⟩ := digit_count_loop_spec radix hr v.natAbs
    refine ⟨h1, ?_⟩
    intro k hk
    by_contra hlt
    push_neg at hlt
    have h3 := h2 (by omega) k hlt
    omega

/-- Claim C1: the spec's digit-count law says `View(v)` has `size() = 1` for
`v = 0` and otherwise the smallest `k` with `radix^k > |v|`, for every
backing integer of any supported width.  For a signed backing type strictly
narrower than `int` the law fails in the code: `make_positive` returns the
promoted negative `int`, the do-while exits after one division, and every
negative value gets `size() = 1`.  For `int8_t v = -100`, radix 10, the code
yields `size() = 1`, although `10^1 > 100` is false (the law requires 3). -/
theorem spec_digit_count_promotion_bug :
    total_digits_prom 8 10 (-100) = 1 ∧
    ¬((-100 : ℤ).natAbs < 10 ^ total_digits_prom 8 10 (-100)) ∧
    (-100 : ℤ).natAbs < 10 ^ 3 ∧ ¬((-100 : ℤ).natAbs < 10 ^ 2) := by
  have h : total_digits_prom 8 10 (-100) = 1 := by
    unfold total_digits_prom
    rw [show make_positive_prom 8 (-100) = -156 from by decide]
    rw [digit_count_loop_prom, dif_neg (by decide)]
  refine ⟨h, ?_, by decide, by decide⟩
  rw [h]
  decide

/-- Claim C2: writing back through the accessor the digit just read
(`set(i, get(i))`) restores the backing value exactly, including its sign. -/
theorem spec_round_trip_law (w radix : ℕ) (signed : Bool) (v : ℤ) (i : ℕ)
    (hw : 1 ≤ w) (hr : 2 ≤ radix) (hv : inRange w signed v)
    (hi : i < (digit_adaptor.ofNumber w radix v).size) :
    digit_set w radix signed v
      (compute_divisor w radix .Forward i (digit_adaptor.ofNumber w radix v).size)
      (digit_get_T w radix signed v
        (compute_divisor w radix .Forward i (digit_adaptor.ofNumber w radix v).size)) = v :=
  round_trip_div w radix signed v _ hw hr hv

theorem spec_round_trip_law_witness :
    (inRange 32 true (-12345 : ℤ) ∧ 0 < (digit_adaptor.ofNumber 32 10 (-12345)).size) ∧
    digit_set 32 10 true (-12345)
      (compute_divisor 32 10 .Forward 0 (digit_adaptor.ofNumber 32 10 (-12345)).size)
      (digit_get_T 32 10 true (-12345)
        (compute_divisor 32 10 .Forward 0 (digit_adaptor.ofNumber 32 10 (-12345)).size))
      = -12345 :=
  ⟨⟨by decide, ofNumber_size_pos 32 10 (-12345)⟩,
   spec_round_trip_law 32 10 true (-12345) 0 (by decide) (by decide) (by decide)
     (ofNumber_size_pos 32 10 (-12345))⟩

/-- Claim C3 counterexample: with `uint32_t` backing (`w = 32`, unsigned),
`v = 4000000000`, auto-derived count `10` (which covers the magnitude:
`4000000000 < 10^10`), writing digit `9` at index `0` wraps the re-encoded
magnitude modulo `2^32`; the decoded digit at index `0` afterwards is `0`,
not `9 = 9 mod 10`, and the other digits change as well. -/
theorem spec_write_isolation_cex :
    (4000000000 : ℤ).natAbs < 10 ^ 10 ∧
    digit_get 32 10
        (digit_set 32 10 false 4000000000 (compute_divisor 32 10 .Forward 0 10) 9)
        (compute_divisor 32 10 .Forward 0 10) = 0 ∧
    ((9 : ℤ) % (10 : ℤ)).toNat = 9 ∧ (0 : ℕ) ≠ 9 := by decide

/-- Claim C3 (amended): provided additionally that the written digit is
nonnegative, the whole view fits the element type (`radix^count ≤ 2^w`, and
`radix^count ≤ 2^(w-1)` for a signed type), and a signed backing type has
rank at least `int` (`32 ≤ w`, excluding the narrow signed types where the
`make_positive` promotion bug corrupts writes — see
`spec_magnitude_promotion_bug`), assigning `d` at index `i` makes the
decoded digit at `i` equal `d mod radix` and leaves every other index's
decoded digit unchanged. -/
theorem spec_write_isolation_amended (w radix c i : ℕ) (signed : Bool) (v d : ℤ)
    (hw : 1 ≤ w) (hr : 2 ≤ radix) (hv : inRange w signed v)
    (hwide : signed = true → 32 ≤ w)
    (hcover : v.natAbs < radix ^ c) (hi : i < c)
    (hfit : radix ^ c ≤ 2 ^ w) (hfitS : signed = true → radix ^ c ≤ 2 ^ (w - 1))
    (hd0 : 0 ≤ d) :
    digit_get w radix
        (digit_set w radix signed v (compute_divisor w radix .Forward i c) d)
        (compute_divisor w radix .Forward i c) = (d % (radix : ℤ)).toNat ∧
    ∀ j, j < c → j ≠ i →
      digit_get w radix
          (digit_set w radix signed v (compute_divisor w radix .Forward i c) d)
          (compute_divisor w radix .Forward j c)
        = digit_get w radix v (compute_divisor w radix .Forward j c) := by
  have hmp := make_positive_natAbs w signed v hw hv
  have hdiv : ∀ j, j < c → compute_divisor w radix .Forward j c = radix ^ (c - 1 - j) := by
    intro j hj
    rw [compute_divisor_forward w radix j c hw hj]
    refine Nat.mod_eq_of_lt ?_
    calc radix ^ (c - 1 - j) ≤ radix ^ (c - 1) :=
        Nat.pow_le_pow_right (by omega) (by omega)
      _ < radix ^ c := Nat.pow_lt_pow_right (by omega) (by omega)
      _ ≤ 2 ^ w := hfit
  have hradix_pos : (0 : ℤ) < (radix : ℤ) := by omega
  have hd2lt : (d % (radix : ℤ)).toNat < radix := by
    have h1 := Int.emod_nonneg d (ne_of_gt hradix_pos)
    have h2 := Int.emod_lt_of_pos d hradix_pos
    omega
  obtain ⟨hs1, hs2, hs3⟩ :=
    digit_surgery radix (c - 1 - i) c (make_positive w v) ((d % (radix : ℤ)).toNat)
      hr (by omega) (by rw [hmp]; exact hcover) hd2lt
  have hnm : new_mag w radix v (compute_divisor w radix .Forward i c) d
      = make_positive w v
        - make_positive w v / radix ^ (c - 1 - i) % radix * radix ^ (c - 1 - i)
        + (d % (radix : ℤ)).toNat * radix ^ (c - 1 - i) := by
    rw [hdiv i hi]
    refine new_mag_exact w radix v _ d hd0 hr ?_ ?_
    · calc radix = radix ^ 1 := (pow_one radix).symm
        _ ≤ radix ^ c := Nat.pow_le_pow_right (by omega) (by omega)
        _ ≤ 2 ^ w := hfit
    · exact lt_of_lt_of_le hs1 hfit
  have ht2lt : make_positive w v
      - make_positive w v / radix ^ (c - 1 - i) % radix * radix ^ (c - 1 - i)
      + (d % (radix : ℤ)).toNat * radix ^ (c - 1 - i) < 2 ^ w := lt_of_lt_of_le hs1 hfit
  have ht2s : signed = true → make_positive w v
      - make_positive w v / radix ^ (c - 1 - i) % radix * radix ^ (c - 1 - i)
      + (d % (radix : ℤ)).toNat * radix ^ (c - 1 - i) ≤ 2 ^ (w - 1) := by
    intro hsig
    have := hfitS hsig
    omega
  have hstored : make_positive w
      (digit_set w radix signed v (compute_divisor w radix .Forward i c) d)
      = make_positive w v
        - make_positive w v / radix ^ (c - 1 - i) % radix * radix ^ (c - 1 - i)
        + (d % (radix : ℤ)).toNat * radix ^ (c - 1 - i) := by
    unfold digit_set
    rw [hnm]
    by_cases hv0 : v < 0
    · rw [if_pos hv0]
      have hsig : signed = true := by
        cases signed with
        | false =>
          have h1 := (hv.2 rfl).1
          omega
        | true => rfl
      subst hsig
      exact make_positive_store_neg w _ hw (ht2s rfl)
    · rw [if_neg hv0]
      exact make_positive_store_nonneg w signed _ hw ht2lt ht2s
  constructor
  · unfold digit_get
    rw [hstored, hdiv i hi]
    exact hs2
  · intro j hj hji
    unfold digit_get
    rw [hstored, hdiv j hj]
    exact hs3 (c - 1 - j) (by omega)

theorem spec_write_isolation_amended_witness :
    (inRange 32 true (-12345 : ℤ) ∧ (32 : ℕ) ≤ 32 ∧
      (-12345 : ℤ).natAbs < 10 ^ 5 ∧ 1 < 5 ∧
      (10 : ℕ) ^ 5 ≤ 2 ^ 32 ∧ (10 : ℕ) ^ 5 ≤ 2 ^ 31 ∧ (0 : ℤ) ≤ 17) ∧
    (digit_get 32 10
        (digit_set 32 10 true (-12345) (compute_divisor 32 10 .Forward 1 5) 17)
        (compute_divisor 32 10 .Forward 1 5) = ((17 : ℤ) % (10 : ℤ)).toNat ∧
      ∀ j, j < 5 → j ≠ 1 →
        digit_get 32 10
            (digit_set 32 10 true (-12345) (compute_divisor 32 10 .Forward 1 5) 17)
            (compute_divisor 32 10 .Forward j 5)
          = digit_get 32 10 (-12345) (compute_divisor 32 10 .Forward j 5)) :=
  ⟨⟨by decide, by decide, by decide, by decide, by decide, by decide, by decide⟩,
   spec_write_isolation_amended 32 10 5 1 true (-12345) 17 (by decide) (by decide)
     (by decide) (fun _ => by decide) (by decide) (by decide) (by decide)
     (fun _ => by decide) (by decide)⟩

/-- Claim C4 counterexample: with `int32_t` backing, `v = -2000000000`
(auto count 10), writing digit `4` at index `0` produces magnitude
`4*10^9`, which is not representable; the stored value wraps to
`+294967296`, a positive value, although the new magnitude is nonzero. -/
theorem spec_sign_preservation_cex :
    inRange 32 true (-2000000000 : ℤ) ∧
    new_mag 32 10 (-2000000000) (compute_divisor 32 10 .Forward 0 10) 4 = 4000000000 ∧
    digit_set 32 10 true (-2000000000) (compute_divisor 32 10 .Forward 0 10) 4
      = 294967296 ∧
    ¬(digit_set 32 10 true (-2000000000) (compute_divisor 32 10 .Forward 0 10) 4 < 0) := by
  decide

/-- Claim C4 (amended): for a negative in-range `v` of a signed backing type
of rank at least `int` (`32 ≤ w`; narrow signed types are excluded by the
`make_positive` promotion bug — see `spec_magnitude_promotion_bug`), a digit
write whose re-encoded magnitude is nonzero and representable (at most
`2^(w-1)`) yields a negative stored value; a write whose re-encoded
magnitude is zero yields exactly `0` (no negative zero). -/
theorem spec_sign_preservation_amended (w radix : ℕ) (v d : ℤ) (div : ℕ)
    (hw : 1 ≤ w) (hwide : 32 ≤ w) (hr : 2 ≤ radix) (hv : inRange w true v)
    (hneg : v < 0) :
    (new_mag w radix v div d ≠ 0 → new_mag w radix v div d ≤ 2 ^ (w - 1) →
      digit_set w radix true v div d < 0) ∧
    (new_mag w radix v div d = 0 → digit_set w radix true v div d = 0) := by
  have hsplit := two_pow_split w hw
  have ht2lt : new_mag w radix v div d < 2 ^ w := new_mag_lt w radix v div d
  constructor
  · intro hne hle
    unfold digit_set
    rw [if_pos hneg, wsub_zero_pos w _ (by omega) (by omega)]
    unfold toNCT
    rw [if_pos rfl, if_neg (by omega)]
    rw [int_pow_cast w]
    omega
  · intro h0
    unfold digit_set
    rw [if_pos hneg, h0, wsub_zero_zero]
    unfold toNCT
    rw [if_pos rfl, if_pos (by positivity)]
    simp

theorem spec_sign_preservation_amended_witness :
    ((32 : ℕ) ≤ 32 ∧ inRange 32 true (-123 : ℤ) ∧ (-123 : ℤ) < 0) ∧
    ((new_mag 32 10 (-123) 1 4 ≠ 0 → new_mag 32 10 (-123) 1 4 ≤ 2 ^ 31 →
        digit_set 32 10 true (-123) 1 4 < 0) ∧
      (new_mag 32 10 (-123) 1 4 = 0 → digit_set 32 10 true (-123) 1 4 = 0)) :=
  ⟨⟨by decide, by decide, by decide⟩,
   spec_sign_preservation_amended 32 10 (-123) 4 1 (by decide) (by decide) (by decide)
     (by decide) (by decide)⟩

/-- Claim C5: the spec requires the magnitude to be computed by widening to
the unsigned counterpart and negating there, with the decoded digit always
in `[0, radix-1]`.  For a signed backing type narrower than `int`
(e.g. `int8_t`), the expression `-u` in `make_positive` integral-promotes
`u` to `int`, so the function returns a negative value and the decoded
digit escapes `[0, radix-1]`: for `int8_t v = -5`, radix 10, weight 1, the
code yields digit `-1` while the intended `w`-bit computation yields `5`. -/
theorem spec_magnitude_promotion_bug :
    make_positive_prom 8 (-5) = -251 ∧
    digit_get_prom 8 10 (-5) 1 = -1 ∧
    ¬(0 ≤ digit_get_prom 8 10 (-5) 1) ∧
    digit_get 8 10 (-5) 1 = 5 := by decide

/-- Claim C6: the shared weight computation returns `radix^(count-1-index)`
for the most-significant-first direction and `radix^index` for the
least-significant-first direction, each reduced modulo `2^w` (the repeated
`NCU` multiplication wraps on overflow). -/
theorem spec_weight_formula (w radix i c : ℕ) (hw : 1 ≤ w) (hi : i < c) :
    compute_divisor w radix .Forward i c = radix ^ (c - 1 - i) % 2 ^ w ∧
    compute_divisor w radix .Reverse i c = radix ^ i % 2 ^ w :=
  ⟨compute_divisor_forward w radix i c hw hi,
   compute_divisor_reverse w radix i c hw (by omega)⟩

theorem spec_weight_formula_witness :
    ((1 : ℕ) ≤ 32 ∧ (2 : ℕ) < 5) ∧
    (compute_divisor 32 10 .Forward 2 5 = 10 ^ (5 - 1 - 2) % 2 ^ 32 ∧
      compute_divisor 32 10 .Reverse 2 5 = 10 ^ 2 % 2 ^ 32) :=
  ⟨⟨by decide, by decide⟩, spec_weight_formula 32 10 2 5 (by decide) (by decide)⟩

/-- Claim C7: the forward weight at `i` equals the reverse weight at the
mirrored position `size - 1 - i`. -/
theorem spec_direction_symmetry (w radix c i : ℕ) :
    compute_divisor w radix .Forward i c
      = compute_divisor w radix .Reverse (c - 1 - i) c :=
  direction_symmetry w radix c i

/-- Claim C8 counterexample: on a view with `count = 3`, `begin() + (-1)`
does not clamp to `0`: the sum `0 + (-1)` wraps around `std::size_t` and is
then clamped from above, yielding position `3` (= `count`), not `0`. -/
theorem spec_iter_clamp_cex :
    iter_plus 3 0 (-1) = 3 ∧ iter_plus 3 0 (-1) ≠ 0 := by decide

/-- Claim C8 (amended): iterator arithmetic always yields a position in
`[0, count]` and never signals an error; an offset overshooting the end
clamps to `count`; but an offset overshooting the start wraps around the
unsigned position type and therefore also clamps to `count`, not to `0`.
(`operator+=`/`operator-=` compute the same index expressions as
`operator+`/`operator-`.) -/
theorem spec_iter_clamp_amended (c p : ℕ) (k : ℤ)
    (hp : p ≤ c) (hc : c < 2 ^ 32) (hk1 : -(2 ^ 31) ≤ k) (hk2 : k < 2 ^ 31) :
    (iter_plus c p k ≤ c ∧ iter_minus c p k ≤ c) ∧
    (0 ≤ (p : ℤ) + k → (p : ℤ) + k ≤ (c : ℤ) → ((iter_plus c p k : ℕ) : ℤ) = (p : ℤ) + k) ∧
    ((c : ℤ) < (p : ℤ) + k → iter_plus c p k = c) ∧
    ((p : ℤ) + k < 0 → iter_plus c p k = c) ∧
    (0 ≤ (p : ℤ) - k → (p : ℤ) - k ≤ (c : ℤ) → ((iter_minus c p k : ℕ) : ℤ) = (p : ℤ) - k) ∧
    ((c : ℤ) < (p : ℤ) - k → iter_minus c p k = c) ∧
    ((p : ℤ) - k < 0 → iter_minus c p k = c) := by
  have h33 : ((2 : ℤ) ^ 33) = 8589934592 := by norm_num
  have h32 : (2 : ℕ) ^ 32 = 4294967296 := by norm_num
  have h31 : ((2 : ℤ) ^ 31) = 2147483648 := by norm_num
  have h1 := clamp_core c ((p : ℤ) + k) hc (by omega) (by omega)
  have h2 := clamp_core c ((p : ℤ) - k) hc (by omega) (by omega)
  unfold iter_plus iter_minus
  exact ⟨⟨h1.1, h2.1⟩, h1.2.1, h1.2.2.1, h1.2.2.2, h2.2.1, h2.2.2.1, h2.2.2.2⟩

theorem spec_iter_clamp_amended_witness :
    ((2 : ℕ) ≤ 5 ∧ (5 : ℕ) < 2 ^ 32 ∧ -(2 ^ 31) ≤ (1 : ℤ) ∧ (1 : ℤ) < 2 ^ 31) ∧
    ((iter_plus 5 2 1 ≤ 5 ∧ iter_minus 5 2 1 ≤ 5) ∧
      (0 ≤ (2 : ℤ) + 1 → (2 : ℤ) + 1 ≤ (5 : ℤ) → ((iter_plus 5 2 1 : ℕ) : ℤ) = (2 : ℤ) + 1) ∧
      ((5 : ℤ) < (2 : ℤ) + 1 → iter_plus 5 2 1 = 5) ∧
      ((2 : ℤ) + 1 < 0 → iter_plus 5 2 1 = 5) ∧
      (0 ≤ (2 : ℤ) - 1 → (2 : ℤ) - 1 ≤ (5 : ℤ) → ((iter_minus 5 2 1 : ℕ) : ℤ) = (2 : ℤ) - 1) ∧
      ((5 : ℤ) < (2 : ℤ) - 1 → iter_minus 5 2 1 = 5) ∧
      ((2 : ℤ) - 1 < 0 → iter_minus 5 2 1 = 5)) :=
  ⟨⟨by decide, by decide, by decide, by decide⟩,
   spec_iter_clamp_amended 5 2 1 (by decide) (by decide) (by decide) (by decide)⟩

/-- Claim C9: `size()` returns the digit count fixed at construction, and a
digit write through an accessor never changes it. -/
theorem spec_size_immutable (w radix : ℕ) (signed : Bool) (da : digit_adaptor)
    (i d v : ℤ) (c : ℕ) :
    (digit_adaptor.writeDigit w radix signed da i d).size = da.size ∧
    (digit_adaptor.ofNumber w radix v).size = total_digits w radix v ∧
    (digit_adaptor.ofNumberCount v c).size = c :=
  ⟨rfl, rfl, rfl⟩

/-- Claim C10: indexing outside `[0, c-1]` (negative indices convert to a
huge `std::size_t` first) clamps to `c`; the resulting accessor has weight
`1`, the weight of the least-significant digit (index `c-1`), so reads
through it decode the least-significant digit. -/
theorem spec_index_clamp_lsd (w radix c : ℕ) (i : ℤ) (n : ℤ)
    (hc : 1 ≤ c) (hc32 : c < 2 ^ 32) (hilo : -(2 ^ 31) ≤ i) (hihi : i < 2 ^ 31)
    (hout : i < 0 ∨ (c : ℤ) ≤ i) :
    index_divisor w radix c i = 1 ∧
    index_divisor w radix c i = compute_divisor w radix .Forward (c - 1) c ∧
    digit_get w radix n (index_divisor w radix c i) = make_positive w n % radix := by
  have h64 : ((2 : ℤ) ^ 64) = 18446744073709551616 := by norm_num
  have h31 : ((2 : ℤ) ^ 31) = 2147483648 := by norm_num
  have h32 : (2 : ℕ) ^ 32 = 4294967296 := by norm_num
  have hge : c ≤ (i % ((2 : ℤ) ^ 64)).toNat := by
    rcases hout with hneg | hge2
    · have hmod : i % ((2 : ℤ) ^ 64) = i + 2 ^ 64 :=
        emod_neg_add i _ (by omega) (by omega) hneg
      rw [hmod]
      omega
    · have hmod : i % ((2 : ℤ) ^ 64) = i :=
        Int.emod_eq_of_lt (by omega) (by omega)
      rw [hmod]
      omega
  have hd1 : index_divisor w radix c i = 1 := by
    unfold index_divisor
    simp only [compute_divisor]
    rw [min_eq_left hge, show c - (c + 1) = 0 by omega]
    rfl
  have hd2 : compute_divisor w radix .Forward (c - 1) c = 1 := by
    simp only [compute_divisor]
    rw [min_eq_right (by omega), show c - (c - 1 + 1) = 0 by omega]
    rfl
  refine ⟨hd1, by rw [hd1, hd2], ?_⟩
  unfold digit_get
  rw [hd1, Nat.div_one]

theorem spec_index_clamp_lsd_witness :
    ((1 : ℕ) ≤ 3 ∧ (3 : ℕ) < 2 ^ 32 ∧ -(2 ^ 31) ≤ (-1 : ℤ) ∧ (-1 : ℤ) < 2 ^ 31 ∧
      ((-1 : ℤ) < 0 ∨ (3 : ℤ) ≤ -1)) ∧
    (index_divisor 32 10 3 (-1) = 1 ∧
      index_divisor 32 10 3 (-1) = compute_divisor 32 10 .Forward (3 - 1) 3 ∧
      digit_get 32 10 745 (index_divisor 32 10 3 (-1)) = make_positive 32 745 % 10) :=
  ⟨⟨by decide, by decide, by decide, by decide, by decide⟩,
   spec_index_clamp_lsd 32 10 3 (-1) 745 (by decide) (by decide) (by decide) (by decide)
     (by decide)⟩

end DigitAdaptorModel
